import Mathlib

/-!
# Verification of the `simple-compiler` pipeline

A shallow embedding of the three stages of the `simcom` front end
(`src/lexer/mod.rs`, `src/parser/mod.rs`, `src/semantic/mod.rs`):

* the lexer is a function from a character list to a token list
  (the Rust `Lexer` iterator, collected);
* the parser is modelled by explicit state-passing functions over token
  lists; the Rust `Result<Ast, Token>` becomes `Except Token Ast` paired
  with the remaining token list, and the `Parser` iterator, collected,
  becomes `runParser`;
* the semantic analyzer carries its mutable fields (`definitions`,
  `order`, `visited`, `cycles`) in an explicit record.  The Rust
  `HashMap` is modelled as an association list with overwriting insert;
  since `HashMap` key iteration order is unspecified, the builder is
  parametrised by the list of roots, and theorems quantify over
  permutations of the key list.  `HashSet` values are modelled as
  duplicate-free lists compared up to membership.
-/

/-- `Token` (src/lexer/mod.rs).  One constructor per Rust variant. -/
inductive Token where
  /-- For anything that we don't recognize. -/
  | illegal : Token
  /-- Last token, when the input has ended. -/
  | eof : Token
  /-- Any word: a variable name, a type name... -/
  | ident (s : String) : Token
  /-- Left parenthesis. -/
  | parL : Token
  /-- Right parenthesis. -/
  | parR : Token
  /-- The ':' character. -/
  | colon : Token
  /-- The ';' character. -/
  | semicolon : Token
  /-- The ',' character. -/
  | comma : Token
  /-- The only keyword we have in the language (`tipo`). -/
  | type : Token
  deriving DecidableEq, Repr

/-- `Lexer::consume_whitespace`: drop the leading whitespace run. -/
def consumeWhitespace : List Char → List Char
  | [] => []
  | c :: cs => if c.isWhitespace then consumeWhitespace cs else c :: cs

/-- The character-gathering loop of `Lexer::read_identifier`: keep taking
alphanumeric characters, returning the gathered run and the rest.
`Char.isAlpha`/`Char.isDigit` stand in for Rust's `is_alphabetic` and
`is_digit(10)`; they agree on every ASCII input, which covers all the
concrete inputs below (the token-level theorems do not depend on the
lexer at all). -/
def readIdentChars : List Char → List Char × List Char
  | [] => ([], [])
  | c :: cs =>
    if c.isAlpha || c.isDigit then
      let r := readIdentChars cs
      (c :: r.1, r.2)
    else ([], c :: cs)

/-- The keyword match at the end of `Lexer::read_identifier`. -/
def identOrKeyword (content : String) : Token :=
  if content = "tipo" then Token.type else Token.ident content

/-- `Lexer::next_token`: whitespace skip, then the character match.  Returns
the token together with the characters left over. -/
def nextToken (input : List Char) : Token × List Char :=
  match consumeWhitespace input with
  | [] => (Token.eof, [])
  | c :: cs =>
    if c = '(' then (Token.parL, cs)
    else if c = ')' then (Token.parR, cs)
    else if c = ':' then (Token.colon, cs)
    else if c = ';' then (Token.semicolon, cs)
    else if c = ',' then (Token.comma, cs)
    else if c = '\x00' then (Token.eof, cs)
    else if c.isAlpha then
      let r := readIdentChars cs
      (identOrKeyword (String.mk (c :: r.1)), r.2)
    else (Token.illegal, cs)

/-- The `Lexer` iterator, collected into a list: produce tokens until
`next_token` yields `EOF` (which is mapped to end-of-sequence).  Each
step consumes at least one character, so the input length plus one is
enough fuel. -/
def tokenizeFuel : Nat → List Char → List Token
  | 0, _ => []
  | fuel + 1, input =>
    match nextToken input with
    | (Token.eof, _) => []
    | (t, rest) => t :: tokenizeFuel fuel rest

/-- The token sequence of an input, as the Rust `Lexer` iterator yields it. -/
def tokenize (input : List Char) : List Token :=
  tokenizeFuel (input.length + 1) input

/-- `Ast` (src/parser/mod.rs). -/
inductive Ast where
  | typeDefinition (name : String) (parameters : List Ast) : Ast
  | parameter (name : String) (tname : String) : Ast
  | unexpected (t : Token) : Ast
  | empty : Ast

/-- `Parser::parse_parameter`: matches `Ident Colon Ident`, reading one
token at a time; a wrong token is returned as the error (already
consumed), end of input becomes `Token.eof`. -/
def parseParameter : List Token → Except Token Ast × List Token
  | Token.ident name :: Token.colon :: Token.ident tname :: rest =>
    (Except.ok (Ast.parameter name tname), rest)
  | Token.ident _ :: Token.colon :: x :: rest => (Except.error x, rest)
  | [Token.ident _, Token.colon] => (Except.error Token.eof, [])
  | Token.ident _ :: x :: rest => (Except.error x, rest)
  | [Token.ident _] => (Except.error Token.eof, [])
  | x :: rest => (Except.error x, rest)
  | [] => (Except.error Token.eof, [])

/-- `Parser::parse_parameters`: one parameter, then — if a comma is peeked —
either stop before a trailing-comma `)` or recurse for the remaining
parameters.  The call to `parse_parameter` is inlined into the patterns
(the fourth and later arms are exactly `parseParameter`'s failure arms);
`parseParameters_unfold` below re-states the Rust control flow through
`parseParameter` and proves this definition equal to it. -/
def parseParameters : List Token → Except Token (List Ast) × List Token
  | Token.ident name :: Token.colon :: Token.ident tname ::
      Token.comma :: Token.parR :: rest =>
    (Except.ok [Ast.parameter name tname], Token.parR :: rest)
  | Token.ident name :: Token.colon :: Token.ident tname ::
      Token.comma :: rest2 =>
    (match parseParameters rest2 with
     | (Except.ok ps, rest3) => (Except.ok (Ast.parameter name tname :: ps), rest3)
     | (Except.error t, rest3) => (Except.error t, rest3))
  | Token.ident name :: Token.colon :: Token.ident tname :: rest =>
    (Except.ok [Ast.parameter name tname], rest)
  | Token.ident _ :: Token.colon :: x :: rest => (Except.error x, rest)
  | [Token.ident _, Token.colon] => (Except.error Token.eof, [])
  | Token.ident _ :: x :: rest => (Except.error x, rest)
  | [Token.ident _] => (Except.error Token.eof, [])
  | x :: rest => (Except.error x, rest)
  | [] => (Except.error Token.eof, [])

/-- `Parser::parse_definition`: matches `Type Ident ParL parameters ParR
Semicolon`, reading one token at a time; the first misplaced token is the
error (already consumed), end of input becomes `Token.eof`. -/
def parseDefinition (ts : List Token) : Except Token Ast × List Token :=
  match ts with
  | Token.type :: ts1 =>
    match ts1 with
    | Token.ident name :: ts2 =>
      match ts2 with
      | Token.parL :: ts3 =>
        match parseParameters ts3 with
        | (Except.ok parameters, ts4) =>
          match ts4 with
          | Token.parR :: ts5 =>
            match ts5 with
            | Token.semicolon :: ts6 =>
              (Except.ok (Ast.typeDefinition name parameters), ts6)
            | x :: ts6 => (Except.error x, ts6)
            | [] => (Except.error Token.eof, [])
          | x :: ts5 => (Except.error x, ts5)
          | [] => (Except.error Token.eof, [])
        | (Except.error t, ts4) => (Except.error t, ts4)
      | x :: ts3 => (Except.error x, ts3)
      | [] => (Except.error Token.eof, [])
    | x :: ts2 => (Except.error x, ts2)
    | [] => (Except.error Token.eof, [])
  | x :: ts1 => (Except.error x, ts1)
  | [] => (Except.error Token.eof, [])

/-- `Parser::advance_until_semicolon`: discard tokens up to and including
the first `Semicolon`, or the whole rest if none is left. -/
def advanceUntilSemicolon : List Token → List Token
  | [] => []
  | Token.semicolon :: rest => rest
  | _ :: rest => advanceUntilSemicolon rest

/-- The loop of the `Parser` iterator (`impl Iterator for Parser`): each
`next` runs `parse_definition`; success yields the node, failure with
`Token::EOF` ends the sequence, any other failure yields
`Unexpected(token)` after resynchronising past the next semicolon.  The
fuel argument only serves termination: every continuing step consumes at
least one token (`parseDefinition_ok_length`,
`parseDefinition_err_length`), so any fuel above the token count gives
the same result (`runParserFuel_congr`). -/
def runParserFuel : Nat → List Token → List Ast
  | 0, _ => []
  | fuel + 1, ts =>
    match parseDefinition ts with
    | (Except.ok ast, rest) => ast :: runParserFuel fuel rest
    | (Except.error t, rest) =>
      if t = Token.eof then []
      else Ast.unexpected t :: runParserFuel fuel (advanceUntilSemicolon rest)

/-- The `Parser` iterator, collected into a list. -/
def runParser (ts : List Token) : List Ast :=
  runParserFuel (ts.length + 1) ts

/-- The contents of the Rust `HashMap<String, Vec<(String, String)>>`,
modelled as an association list with unique keys. -/
abbrev DefTable := List (String × List (String × String))

/-- `semantic::ast_to_parameter`. -/
def astToParameter : Ast → Option (String × String)
  | Ast.parameter name typename => some (name, typename)
  | _ => none

/-- `semantic::build_parameters`: keep only the `Parameter` nodes. -/
def buildParameters (ast : List Ast) : List (String × String) :=
  ast.filterMap astToParameter

/-- `HashMap::insert`: overwrite the value of an existing key, otherwise
add a new binding. -/
def insertDef (defs : DefTable) (name : String)
    (ps : List (String × String)) : DefTable :=
  if defs.any (fun kv => kv.1 = name) then
    defs.map (fun kv => if kv.1 = name then (name, ps) else kv)
  else defs ++ [(name, ps)]

/-- `HashMap::get`. -/
def lookupDef (defs : DefTable) (name : String) :
    Option (List (String × String)) :=
  (defs.find? (fun kv => kv.1 = name)).map (fun kv => kv.2)

/-- The key set of the table, in insertion order; the Rust `HashMap`
iterates keys in an unspecified order, so theorems quantify over
permutations of this list. -/
def keysOf (defs : DefTable) : List String :=
  defs.map (fun kv => kv.1)

/-- `Semantic` (src/semantic/mod.rs): the analyzer's public result. -/
structure Semantic where
  definitions : DefTable
  order : List String
  cycles : List String
  deriving DecidableEq, Repr

/-- `SemanticBuilder` (src/semantic/mod.rs). -/
structure SemanticBuilder where
  definitions : DefTable
  order : List String
  visited : List String
  cycles : List String
  deriving DecidableEq, Repr

/-- `SemanticBuilder::visit`.  The fuel argument only bounds the
recursion depth: one unit is consumed per nested call, and the depth is
bounded by the number of defined names plus two, because every frame
below the root has inserted a fresh defined name into `visited`
(undefined names never recurse).  `build` supplies enough fuel, so the
fuel-out branch (returning the state unchanged) is never taken there.

The body mirrors the Rust: already-ordered nodes return; a node on the
active path overwrites `cycles` with a copy of the whole `visited` set;
otherwise the node is marked visited, its dependencies are visited in
parameter order (when the node has a definition), and the node is
unconditionally appended to `order` and removed from `visited`. -/
def visit : Nat → SemanticBuilder → String → SemanticBuilder
  | 0, sb, _ => sb
  | fuel + 1, sb, node =>
    if sb.order.contains node then sb
    else if sb.visited.contains node then { sb with cycles := sb.visited }
    else
      let sb1 := { sb with visited := node :: sb.visited }
      let sb2 :=
        match lookupDef sb1.definitions node with
        | some d =>
          d.foldl (fun (acc : SemanticBuilder) (pv : String × String) =>
            visit fuel acc pv.2) sb1
        | none => sb1
      { sb2 with order := sb2.order ++ [node],
                 visited := sb2.visited.erase node }

/-- `SemanticBuilder::build`, parametrised by the order in which the
`HashMap` hands out the root keys (`roots` is some permutation of
`keysOf definitions`). -/
def build (defs : DefTable) (roots : List String) : Semantic :=
  let sb0 : SemanticBuilder :=
    { definitions := defs, order := [], visited := [], cycles := [] }
  let sb := roots.foldl (fun acc node => visit (defs.length + 2) acc node) sb0
  { definitions := sb.definitions, order := sb.order, cycles := sb.cycles }

/-- The `for definition in ast` loop of `Semantic::analyze`: insert each
`TypeDefinition` into the table, push each `Unexpected` token onto the
error list.  The Rust catch-all arm is `unreachable!()`; it is modelled
as `none`. -/
def collectDefsGo : DefTable × List Token → List Ast → Option (DefTable × List Token)
  | acc, [] => some acc
  | (defs, errors), node :: rest =>
    match node with
    | Ast.typeDefinition name parameters =>
      collectDefsGo (insertDef defs name (buildParameters parameters), errors) rest
    | Ast.unexpected t => collectDefsGo (defs, errors ++ [t]) rest
    | _ => none

/-- The table-and-error collection pass of `Semantic::analyze`, starting
from an empty table and error list. -/
def collectDefs (nodes : List Ast) : Option (DefTable × List Token) :=
  collectDefsGo ([], []) nodes

/-- `Semantic::analyze` on the collected parser output: `none` models
the `unreachable!()` panic; otherwise errors are checked first and the
builder runs only on an error-free parse. -/
def analyze (nodes : List Ast) (roots : List String) :
    Option (Except (List Token) Semantic) :=
  match collectDefs nodes with
  | none => none
  | some (defs, errors) =>
    match errors.length with
    | 0 => some (Except.ok (build defs roots))
    | _ => some (Except.error errors)

/-- The unexpected tokens of a parse, in sequence order. -/
def unexpectedTokens (nodes : List Ast) : List Token :=
  nodes.filterMap (fun node =>
    match node with
    | Ast.unexpected t => some t
    | _ => none)

/-- Equality of two lists viewed as sets (the Rust `HashSet` has no
observable order). -/
def setEq (xs ys : List String) : Bool :=
  xs.all (fun x => ys.contains x) && ys.all (fun y => xs.contains y)

/-- Whole pipeline on a source string: lex, parse, analyze with the
given root order. -/
def analyzeString (s : String) (roots : List String) :
    Option (Except (List Token) Semantic) :=
  analyze (runParser (tokenize s.data)) roots

/-- The definition table the analyzer builds for a source string. -/
def defTableOf (s : String) : DefTable :=
  match collectDefs (runParser (tokenize s.data)) with
  | some (defs, _) => defs
  | none => []

/-- On success `parse_parameter` consumed exactly three tokens, so the
remaining list is strictly shorter. -/
theorem parseParameter_ok_length {ts rest : List Token} {p : Ast}
    (h : parseParameter ts = (Except.ok p, rest)) :
    rest.length + 3 = ts.length := by
  unfold parseParameter at h
  split at h <;> simp_all

/-- `parseParameters` follows the Rust control flow of
`Parser::parse_parameters` exactly: first `parse_parameter`, then the
comma lookahead, the trailing-comma check against `)`, and the recursion,
with errors propagated. -/
theorem parseParameters_unfold (ts : List Token) :
    parseParameters ts =
      match parseParameter ts with
      | (Except.error t, rest) => (Except.error t, rest)
      | (Except.ok p, rest) =>
        match rest with
        | Token.comma :: rest2 =>
          (match rest2 with
           | Token.parR :: _ => (Except.ok [p], rest2)
           | _ =>
             match parseParameters rest2 with
             | (Except.ok ps, rest3) => (Except.ok (p :: ps), rest3)
             | (Except.error t, rest3) => (Except.error t, rest3))
        | _ => (Except.ok [p], rest) := by
  induction ts using parseParameters.induct with
  | case2 name tname rest2 hnp ps rest3 heq ih =>
    cases rest2 with
    | nil => rfl
    | cons hd tl => cases hd <;> rfl
  | case3 name tname rest2 hnp t rest3 heq ih =>
    cases rest2 with
    | nil => rfl
    | cons hd tl => cases hd <;> rfl
  | case4 name tname rest h1 h2 =>
    cases rest with
    | nil => rfl
    | cons hd tl => cases hd <;> first | rfl | exact (h2 tl rfl).elim
  | case5 s x rest h1 h2 h3 =>
    cases x <;> first | rfl | exact (h3 _ rfl).elim
  | case7 s x rest h1 h2 h3 h4 h5 =>
    cases x <;>
      first
        | rfl
        | cases rest with
          | nil => exact (h5 rfl rfl).elim
          | cons a b => exact (h4 a b rfl rfl).elim
  | case9 x rest h1 h2 h3 h4 h5 h6 h7 =>
    cases x <;>
      first
        | rfl
        | cases rest with
          | nil => exact (h7 _ rfl rfl).elim
          | cons a b => exact (h6 _ a b rfl rfl).elim
  | _ => rfl

theorem advanceUntilSemicolon_length_le (ts : List Token) :
    (advanceUntilSemicolon ts).length ≤ ts.length := by
  induction ts with
  | nil => simp [advanceUntilSemicolon]
  | cons t rest ih =>
    cases t <;> simp [advanceUntilSemicolon] <;> omega

theorem parseParameter_length_le (ts : List Token) :
    (parseParameter ts).2.length ≤ ts.length := by
  unfold parseParameter
  split <;> simp <;> omega

theorem parseParameters_length_le (ts : List Token) :
    (parseParameters ts).2.length ≤ ts.length := by
  induction ts using parseParameters.induct with
  | case1 name tname rest =>
    rw [parseParameters.eq_1]
    simp only [List.length_cons]
    omega
  | case2 name tname rest2 hnp ps rest3 heq ih =>
    rw [parseParameters.eq_2 name tname rest2 hnp, heq]
    rw [heq] at ih
    simp only [List.length_cons] at ih ⊢
    omega
  | case3 name tname rest2 hnp t rest3 heq ih =>
    rw [parseParameters.eq_2 name tname rest2 hnp, heq]
    rw [heq] at ih
    simp only [List.length_cons] at ih ⊢
    omega
  | case4 name tname rest h1 h2 =>
    rw [parseParameters.eq_3 name tname rest h1 h2]
    simp only [List.length_cons]
    omega
  | case5 s x rest h1 h2 h3 =>
    rw [parseParameters.eq_4 s x rest h1 h2 h3]
    simp only [List.length_cons]
    omega
  | case6 s =>
    rw [parseParameters.eq_5]
    simp
  | case7 s x rest h1 h2 h3 h4 h5 =>
    rw [parseParameters.eq_6 s x rest h1 h2 h3 h4 h5]
    simp only [List.length_cons]
    omega
  | case8 s =>
    rw [parseParameters.eq_7]
    simp
  | case9 x rest h1 h2 h3 h4 h5 h6 h7 =>
    rw [parseParameters.eq_8 x rest h1 h2 h3 h4 h5 h6 h7]
    simp only [List.length_cons]
    omega
  | case10 =>
    rw [parseParameters.eq_9]

/-- Restatement of `parseParameters_length_le` on a result hypothesis. -/
theorem parseParameters_result_length_le {ts rest : List Token}
    {r : Except Token (List Ast)} (h : parseParameters ts = (r, rest)) :
    rest.length ≤ ts.length := by
  have hle := parseParameters_length_le ts
  rw [h] at hle
  exact hle

/-- A successful `parse_definition` consumed at least one token. -/
theorem parseDefinition_ok_length {ts rest : List Token} {a : Ast}
    (h : parseDefinition ts = (Except.ok a, rest)) :
    rest.length < ts.length := by
  unfold parseDefinition at h
  repeat split at h
  all_goals simp_all
  rename parseParameters _ = _ => heqp
  have hle := parseParameters_result_length_le heqp
  simp at hle
  omega

/-- A `parse_definition` failure whose unexpected token is not
end-of-input consumed at least one token (the offending token itself). -/
theorem parseDefinition_err_length {ts rest : List Token} {t : Token}
    (h : parseDefinition ts = (Except.error t, rest)) (ht : t ≠ Token.eof) :
    rest.length < ts.length := by
  unfold parseDefinition at h
  repeat split at h
  all_goals simp_all
  all_goals
    try (rename parseParameters _ = _ => heqp;
         have hle := parseParameters_result_length_le heqp;
         simp at hle)
  all_goals omega

/-- Any two sufficient fuels agree. -/
theorem runParserFuel_congr :
    ∀ (f1 f2 : Nat) (ts : List Token), ts.length < f1 → ts.length < f2 →
      runParserFuel f1 ts = runParserFuel f2 ts := by
  intro f1
  induction f1 with
  | zero => intro f2 ts h1 h2; omega
  | succ a ih =>
    intro f2 ts h1 h2
    cases f2 with
    | zero => omega
    | succ b =>
      simp only [runParserFuel]
      rcases h : parseDefinition ts with ⟨r, rest⟩
      rcases r with t | ast
      · by_cases ht : t = Token.eof
        · simp [ht]
        · simp only [ht, if_neg, ite_false]
          have hrest : (advanceUntilSemicolon rest).length < ts.length :=
            Nat.lt_of_le_of_lt (advanceUntilSemicolon_length_le rest)
              (parseDefinition_err_length h ht)
          rw [ih b (advanceUntilSemicolon rest) (by omega) (by omega)]
      · have hrest : rest.length < ts.length := parseDefinition_ok_length h
        dsimp only
        rw [ih b rest (by omega) (by omega)]

/-- One-step unfolding of `runParser`: exactly the body of the Rust
`next`, with the iterator re-entered on the remaining tokens. -/
theorem runParser_unfold (ts : List Token) :
    runParser ts =
      match parseDefinition ts with
      | (Except.ok ast, rest) => ast :: runParser rest
      | (Except.error t, rest) =>
        if t = Token.eof then []
        else Ast.unexpected t :: runParser (advanceUntilSemicolon rest) := by
  show runParserFuel (ts.length + 1) ts = _
  simp only [runParserFuel]
  rcases h : parseDefinition ts with ⟨r, rest⟩
  rcases r with t | ast
  · by_cases ht : t = Token.eof
    · simp [ht]
    · simp only [ht, if_neg, ite_false]
      have hrest : (advanceUntilSemicolon rest).length < ts.length :=
        Nat.lt_of_le_of_lt (advanceUntilSemicolon_length_le rest)
          (parseDefinition_err_length h ht)
      rw [runParserFuel_congr ts.length ((advanceUntilSemicolon rest).length + 1)
        (advanceUntilSemicolon rest) (by omega) (by omega)]
      rfl
  · have hrest : rest.length < ts.length := parseDefinition_ok_length h
    dsimp only
    rw [runParserFuel_congr ts.length (rest.length + 1) rest (by omega) (by omega)]
    rfl

/-- Every element the parser iterator yields is a `TypeDefinition` or an
`Unexpected` marker: the `Ok` arm only ever carries
`Ast::TypeDefinition` and the error arm only builds `Ast::Unexpected`. -/
theorem runParser_shape_aux (n : Nat) :
    ∀ ts : List Token, ts.length ≤ n → ∀ a ∈ runParser ts,
      (∃ nm ps, a = Ast.typeDefinition nm ps) ∨ ∃ t, a = Ast.unexpected t := by
  induction n with
  | zero =>
    intro ts hlen a ha
    have hts : ts = [] := List.eq_nil_of_length_eq_zero (Nat.le_zero.mp hlen)
    subst hts
    rw [runParser_unfold] at ha
    simp [parseDefinition] at ha
  | succ n ih =>
    intro ts hlen a ha
    rw [runParser_unfold] at ha
    rcases h : parseDefinition ts with ⟨r, rest⟩
    rw [h] at ha
    rcases r with t | node
    · by_cases ht : t = Token.eof
      · simp [ht] at ha
      · simp [ht] at ha
        rcases ha with ha | ha
        · exact Or.inr ⟨t, ha⟩
        · have hlt : (advanceUntilSemicolon rest).length ≤ n :=
            Nat.lt_succ_iff.mp (Nat.lt_of_lt_of_le
              (Nat.lt_of_le_of_lt (advanceUntilSemicolon_length_le rest)
                (parseDefinition_err_length h ht)) hlen)
          exact ih _ hlt a ha
    · rcases List.mem_cons.mp ha with ha | ha
      · subst ha
        unfold parseDefinition at h
        repeat split at h
        all_goals simp_all
        exact Or.inl ⟨_, _, h.1.symm⟩
      · have hlt : rest.length ≤ n :=
          Nat.lt_succ_iff.mp
            (Nat.lt_of_lt_of_le (parseDefinition_ok_length h) hlen)
        exact ih _ hlt a ha

/-- Every element the parser iterator yields is a `TypeDefinition` or an
`Unexpected` marker: the `Ok` arm only ever carries
`Ast::TypeDefinition` and the error arm only builds `Ast::Unexpected`. -/
theorem runParser_shape (ts : List Token) :
    ∀ a ∈ runParser ts,
      (∃ nm ps, a = Ast.typeDefinition nm ps) ∨ ∃ t, a = Ast.unexpected t :=
  runParser_shape_aux ts.length ts le_rfl

/-- On a parse containing only `TypeDefinition` and `Unexpected` nodes,
the collection loop never hits the `unreachable!()` arm, and the error
list it produces is exactly the unexpected tokens in sequence order. -/
theorem collectDefsGo_shape :
    ∀ (nodes : List Ast) (defs : DefTable) (errors : List Token),
      (∀ a ∈ nodes,
        (∃ nm ps, a = Ast.typeDefinition nm ps) ∨ ∃ t, a = Ast.unexpected t) →
      ∃ finalDefs, collectDefsGo (defs, errors) nodes =
        some (finalDefs, errors ++ unexpectedTokens nodes) := by
  intro nodes
  induction nodes with
  | nil =>
    intro defs errors hshape
    exact ⟨defs, by simp [collectDefsGo, unexpectedTokens]⟩
  | cons node rest ih =>
    intro defs errors hshape
    rcases hshape node (List.mem_cons_self node rest) with ⟨nm, ps, rfl⟩ | ⟨t, rfl⟩
    · obtain ⟨fd, hfd⟩ := ih (insertDef defs nm (buildParameters ps)) errors
        (fun a ha => hshape a (List.mem_cons_of_mem _ ha))
      exact ⟨fd, by simpa [collectDefsGo, unexpectedTokens] using hfd⟩
    · obtain ⟨fd, hfd⟩ := ih defs (errors ++ [t])
        (fun a ha => hshape a (List.mem_cons_of_mem _ ha))
      refine ⟨fd, ?_⟩
      rw [show collectDefsGo (defs, errors) (Ast.unexpected t :: rest) =
        collectDefsGo (defs, errors ++ [t]) rest from rfl, hfd]
      simp [unexpectedTokens]

/-- `collectDefs` on parser output: never the `unreachable!()` arm, and
the error component is the unexpected-token list. -/
theorem collectDefs_runParser (ts : List Token) :
    ∃ finalDefs, collectDefs (runParser ts) =
      some (finalDefs, unexpectedTokens (runParser ts)) := by
  obtain ⟨fd, hfd⟩ :=
    collectDefsGo_shape (runParser ts) [] [] (runParser_shape ts)
  exact ⟨fd, by simpa [collectDefs] using hfd⟩

/-- A token is in `unexpectedTokens nodes` exactly when its `Unexpected`
node is in `nodes`. -/
theorem mem_unexpectedTokens {nodes : List Ast} {t : Token} :
    t ∈ unexpectedTokens nodes ↔ Ast.unexpected t ∈ nodes := by
  unfold unexpectedTokens
  rw [List.mem_filterMap]
  constructor
  · rintro ⟨a, ha, hfa⟩
    cases a <;> simp_all
  · intro h
    exact ⟨Ast.unexpected t, h, rfl⟩


theorem visitFold_definitions (f : Nat)
    (hf : ∀ (sb : SemanticBuilder) (node : String),
      (visit f sb node).definitions = sb.definitions) :
    ∀ (d : List (String × String)) (sb : SemanticBuilder),
      (List.foldl (fun (acc : SemanticBuilder) (pv : String × String) =>
        visit f acc pv.2) sb d).definitions = sb.definitions := by
  intro d
  induction d with
  | nil => intro sb; rfl
  | cons p rest ihd =>
    intro sb
    rw [List.foldl_cons, ihd, hf]

/-- `visit` never changes the definition table. -/
theorem visit_definitions :
    ∀ (fuel : Nat) (sb : SemanticBuilder) (node : String),
      (visit fuel sb node).definitions = sb.definitions := by
  intro fuel
  induction fuel with
  | zero => intro sb node; rfl
  | succ f ih =>
    intro sb node
    simp only [visit]
    split_ifs with h1 h2
    · rfl
    · rfl
    · dsimp only
      rcases hl : lookupDef sb.definitions node with _ | d
      · rfl
      · exact visitFold_definitions f ih d _

theorem visitFold_visited (f : Nat)
    (hf : ∀ (sb : SemanticBuilder) (node : String),
      (visit f sb node).visited = sb.visited) :
    ∀ (d : List (String × String)) (sb : SemanticBuilder),
      (List.foldl (fun (acc : SemanticBuilder) (pv : String × String) =>
        visit f acc pv.2) sb d).visited = sb.visited := by
  intro d
  induction d with
  | nil => intro sb; rfl
  | cons p rest ihd =>
    intro sb
    rw [List.foldl_cons, ihd, hf]

/-- `visit` restores the active path: every frame that inserts its node
into `visited` erases it again on the way out (the fuel-out and
early-return branches touch nothing). -/
theorem visit_visited :
    ∀ (fuel : Nat) (sb : SemanticBuilder) (node : String),
      (visit fuel sb node).visited = sb.visited := by
  intro fuel
  induction fuel with
  | zero => intro sb node; rfl
  | succ f ih =>
    intro sb node
    simp only [visit]
    split_ifs with h1 h2
    · rfl
    · rfl
    · dsimp only
      rcases hl : lookupDef sb.definitions node with _ | d
      · exact List.erase_cons_head node sb.visited
      · rw [visitFold_visited f ih d _]
        exact List.erase_cons_head node sb.visited

theorem visitFold_order_mono (f : Nat)
    (hf : ∀ (sb : SemanticBuilder) (node x : String),
      x ∈ sb.order → x ∈ (visit f sb node).order) :
    ∀ (d : List (String × String)) (sb : SemanticBuilder) (x : String),
      x ∈ sb.order →
      x ∈ (List.foldl (fun (acc : SemanticBuilder) (pv : String × String) =>
        visit f acc pv.2) sb d).order := by
  intro d
  induction d with
  | nil => intro sb x hx; exact hx
  | cons p rest ihd =>
    intro sb x hx
    rw [List.foldl_cons]
    exact ihd _ x (hf sb p.2 x hx)

/-- `visit` only ever appends to `order`. -/
theorem visit_order_mono :
    ∀ (fuel : Nat) (sb : SemanticBuilder) (node x : String),
      x ∈ sb.order → x ∈ (visit fuel sb node).order := by
  intro fuel
  induction fuel with
  | zero => intro sb node x hx; exact hx
  | succ f ih =>
    intro sb node x hx
    simp only [visit]
    split_ifs with h1 h2
    · exact hx
    · exact hx
    · dsimp only
      rcases hl : lookupDef sb.definitions node with _ | d
      · exact List.mem_append_left _ hx
      · exact List.mem_append_left _ (visitFold_order_mono f ih d _ x hx)

/-- Whenever the walk visits a node that is not on the active path (and
fuel remains), that node ends up in `order`: either it was already
there, or the final unconditional `order.push` adds it — no definedness
or cycle check guards the push. -/
theorem visit_self_order :
    ∀ (fuel : Nat) (sb : SemanticBuilder) (node : String),
      0 < fuel → node ∉ sb.visited → node ∈ (visit fuel sb node).order := by
  intro fuel
  cases fuel with
  | zero => intro sb node h; omega
  | succ f =>
    intro sb node _ hnv
    simp only [visit]
    split_ifs with h1 h2
    · simpa using h1
    · exact absurd (by simpa using h2) hnv
    · dsimp only
      rcases hl : lookupDef sb.definitions node with _ | d
      · exact List.mem_append_right _ (List.mem_singleton.mpr rfl)
      · exact List.mem_append_right _ (List.mem_singleton.mpr rfl)

theorem visitFold_cycles (f : Nat)
    (hcy : ∀ (sb : SemanticBuilder) (m n : String),
      lookupDef sb.definitions n = none → n ∉ sb.visited → n ∉ sb.cycles →
      n ∉ (visit f sb m).cycles) :
    ∀ (d : List (String × String)) (sb : SemanticBuilder) (n : String),
      lookupDef sb.definitions n = none → n ∉ sb.visited → n ∉ sb.cycles →
      n ∉ (List.foldl (fun (acc : SemanticBuilder) (pv : String × String) =>
        visit f acc pv.2) sb d).cycles := by
  intro d
  induction d with
  | nil => intro sb n _ _ hc; exact hc
  | cons p rest ihd =>
    intro sb n hdef hvis hc
    rw [List.foldl_cons]
    refine ihd _ n ?_ ?_ (hcy sb p.2 n hdef hvis hc)
    · rw [visit_definitions f sb p.2]
      exact hdef
    · rw [visit_visited f sb p.2]
      exact hvis

/-- A name with no table entry that is neither on the active path nor
already recorded never enters `cycles`: its own frame spawns no
recursive visits, so no back-edge snapshot of `visited` can contain
it. -/
theorem visit_cycles_not_mem :
    ∀ (fuel : Nat) (sb : SemanticBuilder) (m n : String),
      lookupDef sb.definitions n = none → n ∉ sb.visited → n ∉ sb.cycles →
      n ∉ (visit fuel sb m).cycles := by
  intro fuel
  induction fuel with
  | zero => intro sb m n _ _ hc; exact hc
  | succ f ih =>
    intro sb m n hdef hvis hc
    simp only [visit]
    split_ifs with h1 h2
    · exact hc
    · exact hvis
    · dsimp only
      by_cases hmn : m = n
      · subst hmn
        rw [hdef]
        exact hc
      · rcases hl : lookupDef sb.definitions m with _ | d
        · exact hc
        · refine visitFold_cycles f ih d _ n hdef ?_ hc
          intro hmem
          rcases List.mem_cons.mp hmem with h | h
          · exact hmn h.symm
          · exact hvis h

theorem rootsFold_order_mono (f : Nat) :
    ∀ (roots : List String) (sb : SemanticBuilder) (x : String),
      x ∈ sb.order →
      x ∈ (List.foldl (fun (acc : SemanticBuilder) (node : String) =>
        visit f acc node) sb roots).order := by
  intro roots
  induction roots with
  | nil => intro sb x hx; exact hx
  | cons r rest ihr =>
    intro sb x hx
    rw [List.foldl_cons]
    exact ihr _ x (visit_order_mono f sb r x hx)

theorem rootsFold_visited (f : Nat) :
    ∀ (roots : List String) (sb : SemanticBuilder),
      (List.foldl (fun (acc : SemanticBuilder) (node : String) =>
        visit f acc node) sb roots).visited = sb.visited := by
  intro roots
  induction roots with
  | nil => intro sb; rfl
  | cons r rest ihr =>
    intro sb
    rw [List.foldl_cons, ihr, visit_visited]

theorem rootsFold_definitions (f : Nat) :
    ∀ (roots : List String) (sb : SemanticBuilder),
      (List.foldl (fun (acc : SemanticBuilder) (node : String) =>
        visit f acc node) sb roots).definitions = sb.definitions := by
  intro roots
  induction roots with
  | nil => intro sb; rfl
  | cons r rest ihr =>
    intro sb
    rw [List.foldl_cons, ihr, visit_definitions]

theorem rootsFold_order (f : Nat) (hpos : 0 < f) :
    ∀ (roots : List String) (sb : SemanticBuilder),
      sb.visited = [] → ∀ n ∈ roots,
      n ∈ (List.foldl (fun (acc : SemanticBuilder) (node : String) =>
        visit f acc node) sb roots).order := by
  intro roots
  induction roots with
  | nil => intro sb _ n hn; exact absurd hn (List.not_mem_nil n)
  | cons r rest ihr =>
    intro sb hvis n hn
    rw [List.foldl_cons]
    rcases List.mem_cons.mp hn with rfl | hn
    · refine rootsFold_order_mono f rest _ n ?_
      exact visit_self_order f sb n hpos (by rw [hvis]; exact List.not_mem_nil n)
    · refine ihr _ ?_ n hn
      rw [visit_visited]
      exact hvis

theorem rootsFold_cycles (f : Nat) :
    ∀ (roots : List String) (sb : SemanticBuilder) (n : String),
      lookupDef sb.definitions n = none → n ∉ sb.visited → n ∉ sb.cycles →
      n ∉ (List.foldl (fun (acc : SemanticBuilder) (node : String) =>
        visit f acc node) sb roots).cycles := by
  intro roots
  induction roots with
  | nil => intro sb n _ _ hc; exact hc
  | cons r rest ihr =>
    intro sb n hdef hvis hc
    rw [List.foldl_cons]
    refine ihr _ n ?_ ?_ (visit_cycles_not_mem f sb r n hdef hvis hc)
    · rw [visit_definitions]
      exact hdef
    · rw [visit_visited]
      exact hvis

/-- Every name in the root list is appended to `order` by `build`:
`visit` pushes its node unconditionally, so no root is ever left out. -/
theorem build_order_mem (defs : DefTable) (roots : List String) :
    ∀ n ∈ roots, n ∈ (build defs roots).order := by
  intro n hn
  simp only [build]
  exact rootsFold_order (defs.length + 2) (by omega) roots _ rfl n hn

/-- `build` returns the definition table it was given. -/
theorem build_definitions (defs : DefTable) (roots : List String) :
    (build defs roots).definitions = defs := by
  simp only [build]
  exact rootsFold_definitions (defs.length + 2) roots _

/-- A name with no entry in the definition table never enters the
`cycles` of a whole `build` run. -/
theorem build_cycles_not_mem (defs : DefTable) (roots : List String)
    (n : String) (hdef : lookupDef defs n = none) :
    n ∉ (build defs roots).cycles := by
  simp only [build]
  exact rootsFold_cycles (defs.length + 2) roots _ n hdef
    (List.not_mem_nil n) (List.not_mem_nil n)

/-- A name absent from the key list has no table entry. -/
theorem lookupDef_eq_none (defs : DefTable) (n : String)
    (h : n ∉ keysOf defs) : lookupDef defs n = none := by
  unfold lookupDef
  rw [List.find?_eq_none.mpr, Option.map_none']
  intro kv hkv
  simp only [decide_eq_true_eq]
  intro heq
  exact h (heq ▸ List.mem_map_of_mem (fun kv => kv.1) hkv)

/-- A successful `analyze` run is exactly `build` on the collected
table. -/
theorem analyze_ok_build (ts : List Token) (roots : List String)
    (s : Semantic) (h : analyze (runParser ts) roots = some (Except.ok s)) :
    ∃ fd, collectDefs (runParser ts) =
        some (fd, unexpectedTokens (runParser ts)) ∧ s = build fd roots := by
  obtain ⟨fd, hfd⟩ := collectDefs_runParser ts
  refine ⟨fd, hfd, ?_⟩
  unfold analyze at h
  rw [hfd] at h
  dsimp only at h
  rcases hu : (unexpectedTokens (runParser ts)).length with _ | nn
  · rw [hu] at h
    simp at h
    exact h.symm
  · rw [hu] at h
    simp at h

/-- C2, counterexample: the claim predicts that the input `tipo P(x: E)`
(missing semicolon, end-of-input mid-statement) still yields an
`Unexpected` node; in fact the iterator maps every `Err(Token::EOF)` to
`None`, so the output sequence is empty. -/
theorem c2_counterexample :
    runParser (tokenize "tipo P(x: E)".data) = [] := rfl

/-- C2, amended: the parser's output sequence ends precisely when a
statement attempt fails with `EndOfInput` as the unexpected token of
that attempt, whether or not the attempt had already consumed tokens;
in particular `tipo P(x: E)` produces no node at all. -/
theorem c2_theorem :
    (∀ ts : List Token,
      runParser ts = [] ↔ (parseDefinition ts).1 = Except.error Token.eof) ∧
    runParser (tokenize "tipo P(x: E)".data) = [] := by
  constructor
  · intro ts
    rw [runParser_unfold]
    rcases h : parseDefinition ts with ⟨r, rest⟩
    rcases r with t | ast
    · by_cases ht : t = Token.eof
      · subst ht
        simp
      · simp [ht]
    · simp
  · rfl

/-- C3, counterexample: the claim predicts that `tipo A();` parses to a
successful `TypeDefinition("A", [])`; in fact `parse_parameters` demands
at least one parameter, so the statement fails at the `)` and the parser
emits a single `Unexpected(ParR)` node. -/
theorem c3_counterexample :
    runParser (tokenize "tipo A();".data) = [Ast.unexpected Token.parR] := rfl

/-- C3, amended: the parameter list of a statement is not optional — at
least one parameter is required, and an immediate `)` is returned as the
unexpected token — so `tipo A();` yields one `Unexpected(ParR)` node
instead of a `TypeDefinition`. -/
theorem c3_theorem :
    (∀ ts : List Token,
      parseParameters (Token.parR :: ts) = (Except.error Token.parR, ts)) ∧
    runParser (tokenize "tipo A();".data) = [Ast.unexpected Token.parR] :=
  ⟨fun _ => rfl, rfl⟩

/-- C9: a non-end-of-input failure emits `Unexpected(token)` and then
discards tokens up to and including the next semicolon (or the whole
rest); the resynchronisation equals drop-through-first-semicolon; the
input `tipo Punto(x: Punto);;` yields the successful definition followed
by exactly one `Unexpected(Semicolon)`, and its analysis fails with
exactly that token listed. -/
theorem c9_theorem :
    (∀ ts : List Token,
      advanceUntilSemicolon ts =
        (ts.dropWhile (fun t => !(decide (t = Token.semicolon)))).tail) ∧
    (∀ (ts : List Token) (t : Token) (rest : List Token),
      parseDefinition ts = (Except.error t, rest) → t ≠ Token.eof →
      runParser ts = Ast.unexpected t :: runParser (advanceUntilSemicolon rest)) ∧
    runParser (tokenize "tipo Punto(x: Punto);;".data) =
      [Ast.typeDefinition "Punto" [Ast.parameter "x" "Punto"],
       Ast.unexpected Token.semicolon] ∧
    ∀ roots : List String,
      analyze (runParser (tokenize "tipo Punto(x: Punto);;".data)) roots =
        some (Except.error [Token.semicolon]) := by
  refine ⟨?_, ?_, rfl, fun _ => rfl⟩
  · intro ts
    induction ts with
    | nil => rfl
    | cons hd tl ih =>
      cases hd <;> simp [advanceUntilSemicolon, List.dropWhile_cons] <;> exact ih
  · intro ts t rest h ht
    rw [runParser_unfold, h]
    simp [ht]

/-- C9, witness: at the concrete input `[Semicolon]`, the failure token
is the semicolon itself and the parser emits the `Unexpected` node. -/
theorem c9_witness :
    runParser [Token.semicolon] =
      Ast.unexpected Token.semicolon ::
        runParser (advanceUntilSemicolon []) :=
  c9_theorem.2.1 [Token.semicolon] Token.semicolon [] rfl (by decide)

/-- C10: every element the parser yields for any input is a
`TypeDefinition` or an `Unexpected` marker — never a bare `Parameter`
and never `Empty` — so the `unreachable!()` arm of `Semantic::analyze`
(modelled as `none`) is never executed. -/
theorem c10_theorem :
    (∀ input : List Char, ∀ a ∈ runParser (tokenize input),
      (∃ nm ps, a = Ast.typeDefinition nm ps) ∨ ∃ t, a = Ast.unexpected t) ∧
    ∀ (input : List Char) (roots : List String),
      analyze (runParser (tokenize input)) roots ≠ none := by
  constructor
  · intro input a ha
    exact runParser_shape (tokenize input) a ha
  · intro input roots
    obtain ⟨fd, hfd⟩ := collectDefs_runParser (tokenize input)
    unfold analyze
    rw [hfd]
    dsimp only
    rcases hu : (unexpectedTokens (runParser (tokenize input))).length with _ | n <;>
      simp

/-- C10, witness: the single node parsed from `tipo A(x: B);` is
classified by the theorem. -/
theorem c10_witness :
    (∃ nm ps,
      Ast.typeDefinition "A" [Ast.parameter "x" "B"] =
        Ast.typeDefinition nm ps) ∨
    ∃ t, Ast.typeDefinition "A" [Ast.parameter "x" "B"] = Ast.unexpected t :=
  c10_theorem.1 "tipo A(x: B);".data _ (List.mem_singleton.mpr rfl)

/-- C8: `Semantic::analyze` returns an error iff the parser's sequence
contains at least one `Unexpected` node, and in that case the error
value is exactly the collection of all unexpected tokens in sequence
order (an `Except.error` carries no `order`/`cycles` result). -/
theorem c8_theorem :
    ∀ (ts : List Token) (roots : List String),
      ((∃ e, analyze (runParser ts) roots = some (Except.error e)) ↔
        ∃ t, Ast.unexpected t ∈ runParser ts) ∧
      ∀ e, analyze (runParser ts) roots = some (Except.error e) →
        e = unexpectedTokens (runParser ts) := by
  intro ts roots
  obtain ⟨fd, hfd⟩ := collectDefs_runParser ts
  refine ⟨⟨?_, ?_⟩, ?_⟩
  · rintro ⟨e, he⟩
    unfold analyze at he
    rw [hfd] at he
    dsimp only at he
    rcases hu : (unexpectedTokens (runParser ts)).length with _ | n
    · rw [hu] at he
      simp at he
    · have hne : unexpectedTokens (runParser ts) ≠ [] := by
        intro h0
        rw [h0] at hu
        simp at hu
      obtain ⟨t, htm⟩ := List.exists_mem_of_ne_nil _ hne
      exact ⟨t, mem_unexpectedTokens.mp htm⟩
  · rintro ⟨t, ht⟩
    have htm : t ∈ unexpectedTokens (runParser ts) := mem_unexpectedTokens.mpr ht
    unfold analyze
    rw [hfd]
    dsimp only
    rcases hu : (unexpectedTokens (runParser ts)).length with _ | n
    · exact absurd (List.eq_nil_of_length_eq_zero hu ▸ htm) (List.not_mem_nil t)
    · exact ⟨unexpectedTokens (runParser ts), rfl⟩
  · intro e he
    unfold analyze at he
    rw [hfd] at he
    dsimp only at he
    rcases hu : (unexpectedTokens (runParser ts)).length with _ | n
    · rw [hu] at he
      simp at he
    · rw [hu] at he
      simp at he
      exact he.symm

/-- C8, witness: the parse of the single token `;` consists of one
`Unexpected(Semicolon)` node, and the analyzer reports exactly that
token. -/
theorem c8_witness :
    [Token.semicolon] = unexpectedTokens (runParser [Token.semicolon]) :=
  (c8_theorem [Token.semicolon] []).2 [Token.semicolon] rfl

/-- C1, counterexample: the claim says a name never lands in both
`order` and `cycles` and that for `tipo A(x: A);` the order is empty;
in fact `visit` appends every visited node to `order` unconditionally,
so `A` ends up in both. -/
theorem c1_counterexample :
    ∃ s, analyzeString "tipo A(x: A);" ["A"] = some (Except.ok s) ∧
      "A" ∈ s.order ∧ "A" ∈ s.cycles :=
  ⟨_, rfl, by decide, by decide⟩

/-- C1, amended: after a successful analysis, every type name that is a
key of the definition table ends up in `order` — for every table and
every root iteration order — because `visit` pushes every root
unconditionally; but members of `cycles` are NOT excluded from `order`:
for `tipo A(x: A);` the result has `cycles == {"A"}` and
`order == ["A"]`, so the name is in both. -/
theorem c1_theorem :
    (∀ (defs : DefTable) (roots : List String),
      ∀ n ∈ roots, n ∈ (build defs roots).order) ∧
    (∀ (ts : List Token) (roots : List String) (s : Semantic),
      analyze (runParser ts) roots = some (Except.ok s) →
      roots.Perm (keysOf s.definitions) →
      ∀ n ∈ keysOf s.definitions, n ∈ s.order) ∧
    (∀ roots : List String,
      roots.Perm (keysOf (defTableOf "tipo A(x: A);")) →
      ∃ s, analyzeString "tipo A(x: A);" roots = some (Except.ok s) ∧
        s.order = ["A"] ∧ s.cycles = ["A"]) := by
  refine ⟨fun defs roots => build_order_mem defs roots, ?_, ?_⟩
  · intro ts roots s h hperm n hn
    obtain ⟨fd, hfd, rfl⟩ := analyze_ok_build ts roots s h
    exact build_order_mem fd roots n (hperm.mem_iff.mpr hn)
  · intro roots h
    rw [show keysOf (defTableOf "tipo A(x: A);") = ["A"] from rfl] at h
    rw [List.perm_singleton.mp h]
    exact ⟨_, rfl, rfl, rfl⟩

/-- C1, witness: the universal parts applied to the table of
`tipo A(x: A);` with its only root order, and the concrete part at the
same input. -/
theorem c1_witness :
    ("A" ∈ (build [("A", [("x", "A")])] ["A"]).order) ∧
    ("A" ∈ (Semantic.mk [("A", [("x", "A")])] ["A"] ["A"]).order) ∧
    ∃ s, analyzeString "tipo A(x: A);" ["A"] = some (Except.ok s) ∧
      s.order = ["A"] ∧ s.cycles = ["A"] :=
  ⟨c1_theorem.1 [("A", [("x", "A")])] ["A"] "A" (by decide),
   c1_theorem.2.1 (tokenize "tipo A(x: A);".data) ["A"]
     ⟨[("A", [("x", "A")])], ["A"], ["A"]⟩ rfl (List.Perm.refl _) "A"
     (by decide),
   c1_theorem.2.2 ["A"] (List.Perm.refl _)⟩

/-- C5, counterexample: the claim says a referenced-but-undefined name
appears in neither `order` nor `cycles`; in fact the undefined name
`long` is visited as a dependency and appended to `order`. -/
theorem c5_counterexample :
    ∃ s, analyzeString "tipo A(x: long);" ["A"] = some (Except.ok s) ∧
      "long" ∈ s.order :=
  ⟨_, rfl, by decide⟩

/-- C5, amended: for every analysis of a clean parse, a parameter-type
name that is referenced but never defined (no key in the definition
table) causes no crash during the dependency walk and never appears in
`cycles`; but it is NOT excluded from `order`: any name the walk visits
off the active path — defined or not — is appended to `order`, so for
`tipo A(x: long);` the undefined `long` lands in `order`. -/
theorem c5_theorem :
    (∀ (ts : List Token) (roots : List String) (s : Semantic) (n : String),
      analyze (runParser ts) roots = some (Except.ok s) →
      n ∉ keysOf s.definitions → n ∉ s.cycles) ∧
    (∀ (fuel : Nat) (sb : SemanticBuilder) (n : String),
      0 < fuel → n ∉ sb.visited → n ∈ (visit fuel sb n).order) ∧
    (∀ roots : List String,
      roots.Perm (keysOf (defTableOf "tipo A(x: long);")) →
      ∃ s, analyzeString "tipo A(x: long);" roots = some (Except.ok s) ∧
        "long" ∉ keysOf (defTableOf "tipo A(x: long);") ∧
        "long" ∈ s.order ∧ "long" ∉ s.cycles) := by
  refine ⟨?_, fun fuel sb n hpos hnv => visit_self_order fuel sb n hpos hnv, ?_⟩
  · intro ts roots s n h hk
    obtain ⟨fd, hfd, rfl⟩ := analyze_ok_build ts roots s h
    rw [build_definitions] at hk
    exact build_cycles_not_mem fd roots n (lookupDef_eq_none fd n hk)
  · intro roots h
    rw [show keysOf (defTableOf "tipo A(x: long);") = ["A"] from rfl] at h
    rw [List.perm_singleton.mp h]
    exact ⟨_, rfl, by decide, by decide, by decide⟩

/-- C5, witness: the universal parts applied at the `tipo A(x: long);`
analysis and at a single `visit` call on the undefined `long`, plus the
concrete part at the only root order. -/
theorem c5_witness :
    ("long" ∉ (Semantic.mk [("A", [("x", "long")])] ["long", "A"] []).cycles) ∧
    ("long" ∈
      (visit 1 (SemanticBuilder.mk [("A", [("x", "long")])] [] [] [])
        "long").order) ∧
    ∃ s, analyzeString "tipo A(x: long);" ["A"] = some (Except.ok s) ∧
      "long" ∉ keysOf (defTableOf "tipo A(x: long);") ∧
      "long" ∈ s.order ∧ "long" ∉ s.cycles :=
  ⟨c5_theorem.1 (tokenize "tipo A(x: long);".data) ["A"]
     ⟨[("A", [("x", "long")])], ["long", "A"], []⟩ "long" rfl (by decide),
   c5_theorem.2.1 1 (SemanticBuilder.mk [("A", [("x", "long")])] [] [] [])
     "long" (by decide) (by decide),
   c5_theorem.2.2 ["A"] (List.Perm.refl _)⟩

/-- C6: for `tipo A(x: long); tipo B(a: A);`, whatever root order the
hash map produces, analysis succeeds with `order` exactly
`["long", "A", "B"]` and empty `cycles`: the undefined `long` is visited
first and appended before its dependent. -/
theorem c6_theorem :
    ∀ roots : List String,
      roots.Perm (keysOf (defTableOf "tipo A(x: long); tipo B(a: A);")) →
      ∃ s, analyzeString "tipo A(x: long); tipo B(a: A);" roots =
          some (Except.ok s) ∧
        s.order = ["long", "A", "B"] ∧ s.cycles = [] := by
  intro roots h
  rw [show keysOf (defTableOf "tipo A(x: long); tipo B(a: A);") = ["A", "B"]
    from rfl] at h
  have hmem := List.mem_permutations'.mpr h
  rw [show (["A", "B"] : List String).permutations' = [["A", "B"], ["B", "A"]]
    from rfl] at hmem
  simp only [List.mem_cons, List.not_mem_nil, or_false] at hmem
  rcases hmem with rfl | rfl
  · exact ⟨_, rfl, rfl, rfl⟩
  · exact ⟨_, rfl, rfl, rfl⟩

/-- C6, witness: the theorem applied to the insertion root order. -/
theorem c6_witness :
    ∃ s, analyzeString "tipo A(x: long); tipo B(a: A);" ["A", "B"] =
        some (Except.ok s) ∧
      s.order = ["long", "A", "B"] ∧ s.cycles = [] :=
  c6_theorem ["A", "B"] (List.Perm.refl _)

/-- C4, counterexample: the claim says any two root permutations yield
the same `cycles` set; for the table of `tipo A(x: B); tipo B(x: A); tipo C(x: A);` the root orders
`["A", "B", "C"]` and `["C", "A", "B"]` (both permutations of the key
list) give different `cycles`: visiting `C` first sweeps `C` into the
recorded `visited` path, so `C` lands in `cycles` only in the second
run. -/
theorem c4_counterexample :
    (["A", "B", "C"] : List String).Perm
      (keysOf (defTableOf "tipo A(x: B); tipo B(x: A); tipo C(x: A);")) ∧
    (["C", "A", "B"] : List String).Perm
      (keysOf (defTableOf "tipo A(x: B); tipo B(x: A); tipo C(x: A);")) ∧
    ∃ s1 s2,
      analyzeString "tipo A(x: B); tipo B(x: A); tipo C(x: A);" ["A", "B", "C"] = some (Except.ok s1) ∧
      analyzeString "tipo A(x: B); tipo B(x: A); tipo C(x: A);" ["C", "A", "B"] = some (Except.ok s2) ∧
      "C" ∉ s1.cycles ∧ "C" ∈ s2.cycles :=
  ⟨List.Perm.refl _,
   List.mem_permutations'.mp (by decide),
   _, _, rfl, rfl, by decide, by decide⟩

/-- C4, amended: for every definition table the root order cannot change
the SET of names in `order` (here proved for the counterexample table:
all six root permutations produce an `order` that is set-equal to the
key list), but the `cycles` set is not invariant — the counterexample
above exhibits two root permutations with different `cycles`. -/
theorem c4_theorem :
    ∀ roots : List String,
      roots.Perm (keysOf (defTableOf "tipo A(x: B); tipo B(x: A); tipo C(x: A);")) →
      ∃ s, analyzeString "tipo A(x: B); tipo B(x: A); tipo C(x: A);" roots = some (Except.ok s) ∧
        setEq s.order ["A", "B", "C"] = true := by
  intro roots h
  rw [show keysOf (defTableOf "tipo A(x: B); tipo B(x: A); tipo C(x: A);") = ["A", "B", "C"] from rfl] at h
  have hmem := List.mem_permutations'.mpr h
  rw [show (["A", "B", "C"] : List String).permutations' =
    [["A", "B", "C"], ["B", "A", "C"], ["B", "C", "A"], ["A", "C", "B"], ["C", "A", "B"], ["C", "B", "A"]] from rfl] at hmem
  simp only [List.mem_cons, List.not_mem_nil, or_false] at hmem
  rcases hmem with rfl | rfl | rfl | rfl | rfl | rfl <;>
    exact ⟨_, rfl, by decide⟩

/-- C4, witness: the theorem applied to the insertion root order. -/
theorem c4_witness :
    ∃ s, analyzeString "tipo A(x: B); tipo B(x: A); tipo C(x: A);" ["A", "B", "C"] = some (Except.ok s) ∧
      setEq s.order ["A", "B", "C"] = true :=
  c4_theorem ["A", "B", "C"] (List.Perm.refl _)

/-- C7: for `tipo A(x: B); tipo B(x: A); tipo C(x: D); tipo D(x: C);` — two disjoint dependency cycles — every root
permutation produces a `cycles` set equal (as a set) to `{"A", "B"}`
or to `{"C", "D"}`, the members recorded at the last back-edge
detection; `cycles` never holds all four cycle members at once, because
each detection overwrites the previous contents. -/
theorem c7_theorem :
    ∀ roots : List String,
      roots.Perm (keysOf (defTableOf "tipo A(x: B); tipo B(x: A); tipo C(x: D); tipo D(x: C);")) →
      ∃ s, analyzeString "tipo A(x: B); tipo B(x: A); tipo C(x: D); tipo D(x: C);" roots = some (Except.ok s) ∧
        (setEq s.cycles ["A", "B"] = true ∨ setEq s.cycles ["C", "D"] = true) ∧
        ¬("A" ∈ s.cycles ∧ "B" ∈ s.cycles ∧ "C" ∈ s.cycles ∧ "D" ∈ s.cycles) := by
  intro roots h
  rw [show keysOf (defTableOf "tipo A(x: B); tipo B(x: A); tipo C(x: D); tipo D(x: C);") = ["A", "B", "C", "D"] from rfl] at h
  have hmem := List.mem_permutations'.mpr h
  rw [show (["A", "B", "C", "D"] : List String).permutations' =
    [["A", "B", "C", "D"], ["B", "A", "C", "D"], ["B", "C", "A", "D"], ["B", "C", "D", "A"], ["A", "C", "B", "D"], ["C", "A", "B", "D"], ["C", "B", "A", "D"], ["C", "B", "D", "A"], ["A", "C", "D", "B"], ["C", "A", "D", "B"], ["C", "D", "A", "B"], ["C", "D", "B", "A"], ["A", "B", "D", "C"], ["B", "A", "D", "C"], ["B", "D", "A", "C"], ["B", "D", "C", "A"], ["A", "D", "B", "C"], ["D", "A", "B", "C"], ["D", "B", "A", "C"], ["D", "B", "C", "A"], ["A", "D", "C", "B"], ["D", "A", "C", "B"], ["D", "C", "A", "B"], ["D", "C", "B", "A"]] from rfl] at hmem
  simp only [List.mem_cons, List.not_mem_nil, or_false] at hmem
  rcases hmem with rfl | rfl | rfl | rfl | rfl | rfl | rfl | rfl | rfl | rfl |
    rfl | rfl | rfl | rfl | rfl | rfl | rfl | rfl | rfl | rfl | rfl | rfl |
    rfl | rfl <;>
    exact ⟨_, rfl, by decide, by decide⟩

/-- C7, witness: the theorem applied to the insertion root order. -/
theorem c7_witness :
    ∃ s, analyzeString "tipo A(x: B); tipo B(x: A); tipo C(x: D); tipo D(x: C);" ["A", "B", "C", "D"] = some (Except.ok s) ∧
      (setEq s.cycles ["A", "B"] = true ∨ setEq s.cycles ["C", "D"] = true) ∧
      ¬("A" ∈ s.cycles ∧ "B" ∈ s.cycles ∧ "C" ∈ s.cycles ∧ "D" ∈ s.cycles) :=
  c7_theorem ["A", "B", "C", "D"] (List.Perm.refl _)
